import Mathlib

/-!
# Shallow embedding of the `magic-aborter` cancellation scope (src/index.ts)

The TypeScript class `MagicAborter` holds
  * `_aborted : boolean`            (the "own flag"),
  * `children : Array<MagicAborter>`,
  * `collections : Array<Abortable>` (registered cancelable operations),
  * a `mitt` emitter with two event kinds `"abort"` and `"aborted"`,
    each kind owning an ordered list of listener callbacks.

We embed an aborter as an inductive tree.  Operations and listener
callbacks are identified by natural numbers (modelling JS object
identity, which `Array.includes` / `indexOf` compare by).

Two views of `abort()` are developed:

  * `MagicAborter.abort` — the pure fan-out, for runs in which every
    listener callback and every operation's `abort` procedure returns
    normally and does not touch the scope.  It returns the new state
    together with the trace of observable calls (event emissions,
    listener invocations, operation cancellations).

  * `MagicAborter.abortR` — an interpreter of a single pass on a root
    scope in which each listener / operation id is mapped to a
    behaviour (`ret`urn normally, `throw`, or re-entrantly `collect`
    a new operation on the root).  It models the live drain loop
    `while (collections.length) collections.shift()!.abort()` with
    explicit fuel, and reports whether an exception escaped.
-/

inductive EventType where
  | abortEv
  | abortedEv
deriving DecidableEq, Repr

/-- An observable call made during a pass: an event emission by the scope
with object id `scope`, a listener callback invocation, or an operation's
`abort()` invocation. -/
inductive Event where
  | emit (scope : Nat) (kind : EventType)
  | call (listener : Nat)
  | cancel (op : Nat)
deriving DecidableEq, Repr

/-- State of a `MagicAborter`: object id, `_aborted` flag, `children`,
`collections` (operation ids, in insertion order), and the listener lists
for `"abort"` and `"aborted"` (listener ids, in registration order). -/
inductive MagicAborter where
  | mk : Nat → Bool → List MagicAborter → List Nat → List Nat → List Nat → MagicAborter
deriving Repr

/-- `l.attach.all (f ∘ val) = l.all f`. -/
theorem attach_all_eq {α : Type} (l : List α) (f : α → Bool) :
    (l.attach.all fun c => f c.1) = l.all f := by
  rw [Bool.eq_iff_iff, List.all_eq_true, List.all_eq_true]
  constructor
  · intro h x hx; exact h ⟨x, hx⟩ (List.mem_attach l _)
  · intro h c _; exact h c.1 c.2

/-- `l.attach.any (f ∘ val) = l.any f`. -/
theorem attach_any_eq {α : Type} (l : List α) (f : α → Bool) :
    (l.attach.any fun c => f c.1) = l.any f := by
  rw [Bool.eq_iff_iff, List.any_eq_true, List.any_eq_true]
  constructor
  · intro h; obtain ⟨c, _, hc⟩ := h; exact ⟨c.1, c.2, hc⟩
  · intro h; obtain ⟨x, hx, hfx⟩ := h; exact ⟨⟨x, hx⟩, List.mem_attach l _, hfx⟩

namespace MagicAborter

/-- Object id (models JS reference identity). -/
def objId : MagicAborter → Nat
  | .mk i _ _ _ _ _ => i

/-- The private `_aborted` field (the "own flag"). -/
def ownFlag : MagicAborter → Bool
  | .mk _ f _ _ _ _ => f

/-- The `children` array. -/
def children : MagicAborter → List MagicAborter
  | .mk _ _ ch _ _ _ => ch

/-- The `collections` array of registered operation ids. -/
def collections : MagicAborter → List Nat
  | .mk _ _ _ ops _ _ => ops

/-- Listeners registered for the `"abort"` event, in registration order. -/
def onAbortL : MagicAborter → List Nat
  | .mk _ _ _ _ la _ => la

/-- Listeners registered for the `"aborted"` event, in registration order. -/
def onAbortedL : MagicAborter → List Nat
  | .mk _ _ _ _ _ lb => lb

mutual

/-- The `aborted` getter:
`get aborted() { return this._aborted && this.children.every((i) => i.aborted); }`. -/
def aborted : MagicAborter → Bool
  | .mk _ f ch _ _ _ => f && allAborted ch

/-- `children.every((i) => i.aborted)`, fused into the recursion. -/
def allAborted : List MagicAborter → Bool
  | [] => true
  | c :: cs => aborted c && allAborted cs

end

/-- `collect(abortable)`:
`if (!this.collections.includes(abortable)) this.collections.push(abortable);
 this.aborted = false;`
(the `aborted` setter writes the `_aborted` field). -/
def collect : MagicAborter → Nat → MagicAborter
  | .mk i _ ch ops la lb, op =>
    .mk i false ch (if op ∈ ops then ops else ops ++ [op]) la lb

mutual

/-- `abort()` in the pure view (all collaborators are effect-free):
guard on the derived `aborted` query, emit `"abort"`, drain `collections`
front-to-back invoking each operation's `abort`, recursively abort every
child in order, set `_aborted = true`, emit `"aborted"`.  Returns the new
state and the trace of observable calls.  An event emission is traced as
the `emit` marker followed by one `call` per registered listener of that
kind, in registration order (as `mitt` dispatches). -/
def abort : MagicAborter → MagicAborter × List Event
  | .mk i f ch ops la lb =>
    if (MagicAborter.mk i f ch ops la lb).aborted then (.mk i f ch ops la lb, [])
    else
      let cres := abortList ch
      (.mk i true cres.1 [] la lb,
        Event.emit i .abortEv :: la.map Event.call
          ++ ops.map Event.cancel
          ++ cres.2
          ++ Event.emit i .abortedEv :: lb.map Event.call)

/-- `this.children.forEach((i) => i.abort())`: abort each child in order,
collecting the new child states and concatenating their traces. -/
def abortList : List MagicAborter → List MagicAborter × List Event
  | [] => ([], [])
  | c :: cs =>
    let r := abort c
    let rs := abortList cs
    (r.1 :: rs.1, r.2 ++ rs.2)

end

mutual

/-- Whether `n` occurs as the object id of a node of the tree `a`. -/
def memId (n : Nat) : MagicAborter → Bool
  | .mk i _ ch _ _ _ => n == i || memIdList n ch

def memIdList (n : Nat) : List MagicAborter → Bool
  | [] => false
  | c :: cs => memId n c || memIdList n cs

end

mutual

/-- Whether operation id `x` occurs in the `collections` of any node of `a`. -/
def memOp (x : Nat) : MagicAborter → Bool
  | .mk _ _ ch ops _ _ => ops.contains x || memOpList x ch

def memOpList (x : Nat) : List MagicAborter → Bool
  | [] => false
  | c :: cs => memOp x c || memOpList x cs

end

/-- JS `Array.prototype.indexOf` on the `children` array, comparing by
object id: the index of the first match, or `-1` when absent. -/
def jsIndexOf (l : List MagicAborter) (childId : Nat) : Int :=
  match l.findIdx? (fun c => c.objId == childId) with
  | some k => (k : Int)
  | none => -1

/-- The start index actually used by JS `Array.prototype.splice`:
a negative `start` counts from the end, clamped to `0`; a nonnegative
`start` is clamped to the length. -/
def jsSpliceStart (len : Nat) (start : Int) : Nat :=
  if start < 0 then len - (-start).toNat else min start.toNat len

/-- JS `arr.splice(start, 1)`: remove (at most) one element at the
actual start index. -/
def jsSplice1 (l : List MagicAborter) (start : Int) : List MagicAborter :=
  l.take (jsSpliceStart l.length start) ++ l.drop (jsSpliceStart l.length start + 1)

/-- `removeChildAborter(child)`:
`this.children.splice(this.children.indexOf(child), 1);`. -/
def removeChildAborter : MagicAborter → Nat → MagicAborter
  | .mk i f ch ops la lb, childId => .mk i f (jsSplice1 ch (jsIndexOf ch childId)) ops la lb

/-- Induction over the aborter tree: to prove `P` everywhere it suffices
to prove it at every node assuming it on all children. -/
theorem tree_ind (P : MagicAborter → Prop)
    (h : ∀ i f ch ops la lb, (∀ c ∈ ch, P c) → P (.mk i f ch ops la lb)) :
    ∀ a, P a
  | .mk i f ch ops la lb => h i f ch ops la lb (fun c hc => tree_ind P h c)
termination_by a => sizeOf a
decreasing_by
  have := List.sizeOf_lt_of_mem hc
  simp only [mk.sizeOf_spec]
  omega

theorem allAborted_eq (ch : List MagicAborter) : allAborted ch = ch.all aborted := by
  induction ch with
  | nil => rfl
  | cons c cs ih => rw [allAborted, ih, List.all_cons]

theorem aborted_mk (i : Nat) (f : Bool) (ch : List MagicAborter) (ops la lb : List Nat) :
    aborted (.mk i f ch ops la lb) = (f && ch.all aborted) := by
  rw [aborted, allAborted_eq]

theorem abort_of_aborted (a : MagicAborter) (h : a.aborted = true) : abort a = (a, []) := by
  obtain ⟨i, f, ch, ops, la, lb⟩ := a
  rw [abort]
  simp [h]

theorem abortList_eq (ch : List MagicAborter) :
    abortList ch = (ch.map (fun c => (abort c).1), (ch.map (fun c => (abort c).2)).flatten) := by
  induction ch with
  | nil => rfl
  | cons c cs ih => rw [abortList, ih]; simp

theorem abort_run (i : Nat) (f : Bool) (ch : List MagicAborter) (ops la lb : List Nat)
    (h : aborted (.mk i f ch ops la lb) = false) :
    abort (.mk i f ch ops la lb) =
      (.mk i true (ch.map (fun c => (abort c).1)) [] la lb,
        Event.emit i .abortEv :: la.map Event.call
          ++ ops.map Event.cancel
          ++ (ch.map (fun c => (abort c).2)).flatten
          ++ Event.emit i .abortedEv :: lb.map Event.call) := by
  rw [abort]
  simp only [h, Bool.false_eq_true, if_false, abortList_eq]

theorem memIdList_eq (n : Nat) (ch : List MagicAborter) : memIdList n ch = ch.any (memId n) := by
  induction ch with
  | nil => rfl
  | cons c cs ih => rw [memIdList, ih, List.any_cons]

theorem memId_mk (n i : Nat) (f : Bool) (ch : List MagicAborter) (ops la lb : List Nat) :
    memId n (.mk i f ch ops la lb) = (n == i || ch.any (memId n)) := by
  rw [memId, memIdList_eq]

theorem memOpList_eq (x : Nat) (ch : List MagicAborter) : memOpList x ch = ch.any (memOp x) := by
  induction ch with
  | nil => rfl
  | cons c cs ih => rw [memOpList, ih, List.any_cons]

theorem memOp_mk (x i : Nat) (f : Bool) (ch : List MagicAborter) (ops la lb : List Nat) :
    memOp x (.mk i f ch ops la lb) = (ops.contains x || ch.any (memOp x)) := by
  rw [memOp, memOpList_eq]

/-- After a call to `abort`, the derived `aborted` query is true. -/
theorem abort_aborted (a : MagicAborter) : (abort a).1.aborted = true := by
  induction a using tree_ind with
  | h i f ch ops la lb IH =>
    cases hab : aborted (.mk i f ch ops la lb) with
    | true => rw [abort_of_aborted _ hab]; exact hab
    | false =>
      rw [abort_run i f ch ops la lb hab]
      rw [aborted_mk]
      simp only [Bool.true_and, List.all_eq_true, List.mem_map]
      rintro x ⟨c, hc, rfl⟩
      exact IH c hc

/-- Every `emit` event in the trace of `abort a` carries the object id of
some node of `a`. -/
theorem emit_mem_abort (n : Nat) (k : EventType) :
    ∀ a : MagicAborter, Event.emit n k ∈ (abort a).2 → memId n a = true := by
  intro a
  induction a using tree_ind with
  | h i f ch ops la lb IH =>
    intro hmem
    cases hab : aborted (.mk i f ch ops la lb) with
    | true => rw [abort_of_aborted _ hab] at hmem; simp at hmem
    | false =>
      rw [abort_run i f ch ops la lb hab] at hmem
      rw [memId_mk]
      simp only [List.mem_cons, List.mem_append, List.mem_map, List.mem_flatten] at hmem
      rcases hmem with
        (((h0 | ⟨l, -, hl⟩) | ⟨o, -, ho⟩) | ⟨tr, ⟨c, hc, rfl⟩, hin⟩) | (h4 | ⟨l, -, hl⟩)
      · cases h0; simp
      · cases hl
      · cases ho
      · have := IH c hc hin
        apply Bool.or_eq_true_iff.mpr
        right
        exact List.any_eq_true.mpr ⟨c, hc, this⟩
      · cases h4; simp
      · cases hl

/-- Every `cancel` event in the trace of `abort a` names an operation that
was registered somewhere in the tree `a`. -/
theorem cancel_mem_abort (x : Nat) :
    ∀ a : MagicAborter, Event.cancel x ∈ (abort a).2 → memOp x a = true := by
  intro a
  induction a using tree_ind with
  | h i f ch ops la lb IH =>
    intro hmem
    cases hab : aborted (.mk i f ch ops la lb) with
    | true => rw [abort_of_aborted _ hab] at hmem; simp at hmem
    | false =>
      rw [abort_run i f ch ops la lb hab] at hmem
      rw [memOp_mk]
      simp only [List.mem_cons, List.mem_append, List.mem_map, List.mem_flatten] at hmem
      rcases hmem with
        (((h0 | ⟨l, -, hl⟩) | ⟨o, ho, ho2⟩) | ⟨tr, ⟨c, hc, rfl⟩, hin⟩) | (h4 | ⟨l, -, hl⟩)
      · cases h0
      · cases hl
      · cases ho2
        apply Bool.or_eq_true_iff.mpr
        left
        exact List.elem_iff.mpr ho
      · have := IH c hc hin
        apply Bool.or_eq_true_iff.mpr
        right
        exact List.any_eq_true.mpr ⟨c, hc, this⟩
      · cases h4
      · cases hl

/-- Behaviour of a collaborator callback (a listener callback or an
operation's `abort` procedure) when invoked during a pass on the root
scope: return normally, raise an exception, or re-entrantly call
`collect(op)` on the root scope and then return. -/
inductive Behavior where
  | ret
  | throwEx
  | collectOp (op : Nat)
deriving DecidableEq, Repr

/-- Replace the `collections` array (models `collections.shift()`). -/
def withCollections : MagicAborter → List Nat → MagicAborter
  | .mk i f ch _ la lb, ops => .mk i f ch ops la lb

/-- Dispatch an event to its listeners in registration order, as `mitt`
does.  Each listener id is interpreted through `lenv`; a throwing listener
stops the dispatch and the exception escapes (third component `true`).
A `collectOp` listener re-enters `collect` on the scope. -/
def runL (lenv : Nat → Behavior) : List Nat → MagicAborter → MagicAborter × List Event × Bool
  | [], s => (s, [], false)
  | l :: rest, s =>
    match lenv l with
    | .ret =>
      let r := runL lenv rest s
      (r.1, Event.call l :: r.2.1, r.2.2)
    | .throwEx => (s, [Event.call l], true)
    | .collectOp b =>
      let r := runL lenv rest (collect s b)
      (r.1, Event.call l :: r.2.1, r.2.2)

/-- The live drain loop
`while (this.collections.length) { this.collections.shift()!.abort(); }`
with explicit fuel.  Each iteration shifts the first operation off the
live `collections` array and invokes its `abort` procedure (interpreted
through `oenv`); a re-entrant `collect` lands in the same live array and
is observed by later iterations.  `none` means the fuel ran out. -/
def drain (oenv : Nat → Behavior) : Nat → MagicAborter → Option (MagicAborter × List Event × Bool)
  | 0, _ => none
  | fuel + 1, s =>
    match s.collections with
    | [] => some (s, [], false)
    | op :: rest =>
      match oenv op with
      | .throwEx => some (withCollections s rest, [Event.cancel op], true)
      | .ret =>
        match drain oenv fuel (withCollections s rest) with
        | none => none
        | some r => some (r.1, Event.cancel op :: r.2.1, r.2.2)
      | .collectOp b =>
        match drain oenv fuel (collect (withCollections s rest) b) with
        | none => none
        | some r => some (r.1, Event.cancel op :: r.2.1, r.2.2)

/-- One `abort()` pass on a root scope, with effectful listener and
operation callbacks (interpreted through `lenv` / `oenv`), following
src/index.ts line by line: guard on the derived `aborted` query, emit
`"abort"`, drain the live `collections` array, abort the children in
order (children's own collaborators are taken effect-free, via the pure
`abort`), set `_aborted = true`, emit `"aborted"`.  The result is `none`
when the drain fuel ran out, otherwise the final state, the trace, and
whether an exception escaped to the caller of `abort()`. -/
def abortR (lenv oenv : Nat → Behavior) (fuel : Nat) (s : MagicAborter) :
    Option (MagicAborter × List Event × Bool) :=
  if s.aborted then some (s, [], false) else
  match runL lenv s.onAbortL s with
  | (s1, tr1, true) => some (s1, Event.emit s.objId .abortEv :: tr1, true)
  | (s1, tr1, false) =>
    match drain oenv fuel s1 with
    | none => none
    | some (s2, tr2, true) =>
      some (s2, Event.emit s.objId .abortEv :: tr1 ++ tr2, true)
    | some (s2, tr2, false) =>
      let cres := s2.children.map abort
      let s3 := MagicAborter.mk s2.objId true (cres.map Prod.fst) s2.collections
        s2.onAbortL s2.onAbortedL
      match runL lenv s3.onAbortedL s3 with
      | (s4, tr4, t4) =>
        some (s4, Event.emit s.objId .abortEv :: tr1 ++ tr2 ++ (cres.map Prod.snd).flatten
            ++ Event.emit s.objId .abortedEv :: tr4, t4)

theorem collect_collections (s : MagicAborter) (b : Nat) :
    (collect s b).collections =
      if b ∈ s.collections then s.collections else s.collections ++ [b] := by
  obtain ⟨i, f, ch, ops, la, lb⟩ := s
  rfl

theorem collect_self_mem (s : MagicAborter) (b : Nat) : b ∈ (collect s b).collections := by
  rw [collect_collections]
  split
  · assumption
  · simp

theorem collect_mem_preserve {x : Nat} (s : MagicAborter) (b : Nat)
    (h : x ∈ s.collections) : x ∈ (collect s b).collections := by
  rw [collect_collections]
  split
  · exact h
  · simp [h]

theorem withCollections_collections (s : MagicAborter) (ops : List Nat) :
    (withCollections s ops).collections = ops := by
  obtain ⟨i, f, ch, ops0, la, lb⟩ := s
  rfl

theorem withCollections_withCollections (s : MagicAborter) (a b : List Nat) :
    withCollections (withCollections s a) b = withCollections s b := by
  obtain ⟨i, f, ch, ops0, la, lb⟩ := s
  rfl

/-- Dispatching to listeners that all return normally leaves the state
unchanged, fires each listener once in order, and no exception escapes. -/
theorem runL_all_ret (lenv : Nat → Behavior) :
    ∀ (ls : List Nat) (s : MagicAborter), (∀ l ∈ ls, lenv l = .ret) →
      runL lenv ls s = (s, ls.map Event.call, false) := by
  intro ls
  induction ls with
  | nil => intro s _; rfl
  | cons l rest ih =>
    intro s h
    simp only [runL, h l (List.mem_cons_self l rest)]
    rw [ih s (fun x hx => h x (List.mem_cons_of_mem l hx))]
    simp

/-- Dispatching to listeners where the ones before `l` return normally and
`l` throws: the listeners up to and including `l` fire, the exception
escapes, and the state is unchanged. -/
theorem runL_ret_throw (lenv : Nat → Behavior) :
    ∀ (pre : List Nat) (l : Nat) (post : List Nat) (s : MagicAborter),
      (∀ p ∈ pre, lenv p = .ret) → lenv l = .throwEx →
      runL lenv (pre ++ l :: post) s = (s, (pre ++ [l]).map Event.call, true) := by
  intro pre
  induction pre with
  | nil =>
    intro l post s _ hl
    simp only [List.nil_append, runL, hl, List.map_cons, List.map_nil]
  | cons p ps ih =>
    intro l post s h hl
    simp only [List.cons_append, runL, h p (List.mem_cons_self p ps), List.append_eq]
    rw [ih l post s (fun x hx => h x (List.mem_cons_of_mem p hx)) hl]
    simp

/-- A completed listener dispatch (no exception) can only add to
`collections`: membership is preserved. -/
theorem runL_mem_preserve (lenv : Nat → Behavior) {x : Nat} :
    ∀ (ls : List Nat) (s s' : MagicAborter) (tr : List Event),
      runL lenv ls s = (s', tr, false) → x ∈ s.collections → x ∈ s'.collections := by
  intro ls
  induction ls with
  | nil =>
    intro s s' tr h hx
    simp only [runL, Prod.mk.injEq] at h
    exact h.1 ▸ hx
  | cons l rest ih =>
    intro s s' tr h hx
    cases hb : lenv l with
    | ret =>
      simp only [runL, hb] at h
      rcases hr : runL lenv rest s with ⟨s1, tr1, t1⟩
      rw [hr] at h
      simp only [Prod.mk.injEq] at h
      obtain ⟨h1, _, h3⟩ := h
      exact h1 ▸ ih s s1 tr1 (by rw [hr, h3]) hx
    | throwEx =>
      simp only [runL, hb, Prod.mk.injEq] at h
      exact absurd h.2.2 (by simp)
    | collectOp b =>
      simp only [runL, hb] at h
      rcases hr : runL lenv rest (collect s b) with ⟨s1, tr1, t1⟩
      rw [hr] at h
      simp only [Prod.mk.injEq] at h
      obtain ⟨h1, _, h3⟩ := h
      exact h1 ▸ ih (collect s b) s1 tr1 (by rw [hr, h3])
        (collect_mem_preserve s b hx)

/-- If a listener that re-entrantly collects operation `b` is dispatched
in a completed listener phase, `b` is in `collections` afterwards. -/
theorem runL_collect_mem (lenv : Nat → Behavior) {b : Nat} :
    ∀ (ls : List Nat) (s s' : MagicAborter) (tr : List Event) (l : Nat),
      runL lenv ls s = (s', tr, false) → l ∈ ls → lenv l = .collectOp b →
      b ∈ s'.collections := by
  intro ls
  induction ls with
  | nil => intro s s' tr l _ hmem _; cases hmem
  | cons l0 rest ih =>
    intro s s' tr l h hmem hl
    rcases List.mem_cons.mp hmem with rfl | hmem
    · simp only [runL, hl] at h
      rcases hr : runL lenv rest (collect s b) with ⟨s1, tr1, t1⟩
      rw [hr] at h
      simp only [Prod.mk.injEq] at h
      obtain ⟨h1, _, h3⟩ := h
      exact h1 ▸ runL_mem_preserve lenv rest (collect s b) s1 tr1
        (by rw [hr, h3]) (collect_self_mem s b)
    · cases hb : lenv l0 with
      | ret =>
        simp only [runL, hb] at h
        rcases hr : runL lenv rest s with ⟨s1, tr1, t1⟩
        rw [hr] at h
        simp only [Prod.mk.injEq] at h
        obtain ⟨h1, _, h3⟩ := h
        exact h1 ▸ ih s s1 tr1 l (by rw [hr, h3]) hmem hl
      | throwEx =>
        simp only [runL, hb, Prod.mk.injEq] at h
        exact absurd h.2.2 (by simp)
      | collectOp b0 =>
        simp only [runL, hb] at h
        rcases hr : runL lenv rest (collect s b0) with ⟨s1, tr1, t1⟩
        rw [hr] at h
        simp only [Prod.mk.injEq] at h
        obtain ⟨h1, _, h3⟩ := h
        exact h1 ▸ ih (collect s b0) s1 tr1 l (by rw [hr, h3]) hmem hl

/-- Every operation that is in the live `collections` array when the
drain loop runs is canceled by the time the loop completes without an
exception (the loop only stops on the empty array, and only `shift`
removes elements, emitting a `cancel` for each). -/
theorem drain_complete_cancels (oenv : Nat → Behavior) :
    ∀ (fuel : Nat) (s s' : MagicAborter) (tr : List Event),
      drain oenv fuel s = some (s', tr, false) →
      ∀ x ∈ s.collections, Event.cancel x ∈ tr := by
  intro fuel
  induction fuel with
  | zero => intro s s' tr h; simp [drain] at h
  | succ n ih =>
    intro s s' tr h x hx
    rw [drain] at h
    cases hc : s.collections with
    | nil => rw [hc] at hx; cases hx
    | cons op rest =>
      rw [hc] at h hx
      dsimp only at h
      cases hb : oenv op with
      | throwEx => rw [hb] at h; simp at h
      | ret =>
        rw [hb] at h
        dsimp only at h
        cases hd : drain oenv n (withCollections s rest) with
        | none => rw [hd] at h; cases h
        | some r =>
          rw [hd] at h
          obtain ⟨s2, tr2, t2⟩ := r
          simp only [Option.some.injEq, Prod.mk.injEq] at h
          obtain ⟨-, htr, ht⟩ := h
          rcases List.mem_cons.mp hx with rfl | hx
          · rw [← htr]; exact List.mem_cons_self _ _
          · rw [← htr]
            apply List.mem_cons_of_mem
            exact ih (withCollections s rest) s2 tr2 (by rw [hd, ht])
              x (by rw [withCollections_collections]; exact hx)
      | collectOp b =>
        rw [hb] at h
        dsimp only at h
        cases hd : drain oenv n (collect (withCollections s rest) b) with
        | none => rw [hd] at h; cases h
        | some r =>
          rw [hd] at h
          obtain ⟨s2, tr2, t2⟩ := r
          simp only [Option.some.injEq, Prod.mk.injEq] at h
          obtain ⟨-, htr, ht⟩ := h
          rcases List.mem_cons.mp hx with rfl | hx
          · rw [← htr]; exact List.mem_cons_self _ _
          · rw [← htr]
            apply List.mem_cons_of_mem
            exact ih (collect (withCollections s rest) b) s2 tr2 (by rw [hd, ht])
              x (collect_mem_preserve _ b (by rw [withCollections_collections]; exact hx))

/-- If an operation in the live array re-entrantly collects operation `b`
when its own `abort` runs, then `b` is also canceled before a completed
drain loop ends. -/
theorem drain_collectOp_canceled (oenv : Nat → Behavior) :
    ∀ (fuel : Nat) (s s' : MagicAborter) (tr : List Event) (op b : Nat),
      drain oenv fuel s = some (s', tr, false) →
      op ∈ s.collections → oenv op = .collectOp b →
      Event.cancel b ∈ tr := by
  intro fuel
  induction fuel with
  | zero => intro s s' tr op b h; simp [drain] at h
  | succ n ih =>
    intro s s' tr op b h hmem hop
    rw [drain] at h
    cases hc : s.collections with
    | nil => rw [hc] at hmem; cases hmem
    | cons o0 rest =>
      rw [hc] at h hmem
      dsimp only at h
      rcases List.mem_cons.mp hmem with rfl | hmem
      · rw [hop] at h
        dsimp only at h
        cases hd : drain oenv n (collect (withCollections s rest) b) with
        | none => rw [hd] at h; cases h
        | some r =>
          rw [hd] at h
          obtain ⟨s2, tr2, t2⟩ := r
          simp only [Option.some.injEq, Prod.mk.injEq] at h
          obtain ⟨-, htr, ht⟩ := h
          rw [← htr]
          apply List.mem_cons_of_mem
          exact drain_complete_cancels oenv n _ s2 tr2 (by rw [hd, ht]) b
            (collect_self_mem _ b)
      · cases hb : oenv o0 with
        | throwEx => rw [hb] at h; simp at h
        | ret =>
          rw [hb] at h
          dsimp only at h
          cases hd : drain oenv n (withCollections s rest) with
          | none => rw [hd] at h; cases h
          | some r =>
            rw [hd] at h
            obtain ⟨s2, tr2, t2⟩ := r
            simp only [Option.some.injEq, Prod.mk.injEq] at h
            obtain ⟨-, htr, ht⟩ := h
            rw [← htr]
            apply List.mem_cons_of_mem
            exact ih (withCollections s rest) s2 tr2 op b (by rw [hd, ht])
              (by rw [withCollections_collections]; exact hmem) hop
        | collectOp b0 =>
          rw [hb] at h
          dsimp only at h
          cases hd : drain oenv n (collect (withCollections s rest) b0) with
          | none => rw [hd] at h; cases h
          | some r =>
            rw [hd] at h
            obtain ⟨s2, tr2, t2⟩ := r
            simp only [Option.some.injEq, Prod.mk.injEq] at h
            obtain ⟨-, htr, ht⟩ := h
            rw [← htr]
            apply List.mem_cons_of_mem
            exact ih (collect (withCollections s rest) b0) s2 tr2 op b (by rw [hd, ht])
              (collect_mem_preserve _ b0 (by rw [withCollections_collections]; exact hmem)) hop

/-- Draining a `collections` array whose operations up to some point all
return normally and whose next operation throws: the earlier operations
and the throwing one are canceled (in FIFO order), the rest of the array
survives, and the exception escapes. -/
theorem drain_ret_throw (oenv : Nat → Behavior) :
    ∀ (pre : List Nat) (op : Nat) (post : List Nat) (fuel : Nat) (s : MagicAborter),
      s.collections = pre ++ op :: post →
      (∀ p ∈ pre, oenv p = .ret) → oenv op = .throwEx → pre.length < fuel →
      drain oenv fuel s =
        some (withCollections s post, (pre ++ [op]).map Event.cancel, true) := by
  intro pre
  induction pre with
  | nil =>
    intro op post fuel s hs hp hop hf
    cases fuel with
    | zero => omega
    | succ n =>
      rw [drain, hs]
      simp [hop]
  | cons p ps ih =>
    intro op post fuel s hs hp hop hf
    cases fuel with
    | zero => simp at hf
    | succ n =>
      rw [drain, hs]
      simp only [List.cons_append, hp p (List.mem_cons_self p ps)]
      rw [ih op post n (withCollections s (ps ++ op :: post))
        (withCollections_collections s _)
        (fun x hx => hp x (List.mem_cons_of_mem p hx)) hop (by simp at hf; omega)]
      rw [withCollections_withCollections]
      simp

theorem count_emit_map_call (ls : List Nat) (i : Nat) (k : EventType) :
    (ls.map Event.call).count (Event.emit i k) = 0 := by
  rw [List.count_eq_zero]
  intro hmem
  obtain ⟨l, -, hl⟩ := List.mem_map.mp hmem
  cases hl

theorem count_emit_map_cancel (ls : List Nat) (i : Nat) (k : EventType) :
    (ls.map Event.cancel).count (Event.emit i k) = 0 := by
  rw [List.count_eq_zero]
  intro hmem
  obtain ⟨l, -, hl⟩ := List.mem_map.mp hmem
  cases hl

theorem count_cancel_map_call (ls : List Nat) (x : Nat) :
    (ls.map Event.call).count (Event.cancel x) = 0 := by
  rw [List.count_eq_zero]
  intro hmem
  obtain ⟨l, -, hl⟩ := List.mem_map.mp hmem
  cases hl

theorem count_cancel_map_cancel (ls : List Nat) (x : Nat) :
    (ls.map Event.cancel).count (Event.cancel x) = ls.count x :=
  List.count_map_of_injective ls Event.cancel (fun a b hab => by cases hab; rfl) x

/-- In a pass that actually runs (guard open), each of the two lifecycle
events of the root scope is emitted exactly once, provided no descendant
shares the root's object id (distinct JS objects). -/
theorem abort_emit_count (a : MagicAborter) (k : EventType)
    (h1 : a.aborted = false)
    (h2 : ∀ c ∈ a.children, memId a.objId c = false) :
    (abort a).2.count (Event.emit a.objId k) = 1 := by
  obtain ⟨i, f, ch, ops, la, lb⟩ := a
  simp only [objId, children] at h2 ⊢
  rw [abort_run i f ch ops la lb h1]
  have hflat : ((ch.map (fun c => (abort c).2)).flatten).count (Event.emit i k) = 0 := by
    rw [List.count_eq_zero]
    intro hmem
    obtain ⟨tr, htr, hin⟩ := List.mem_flatten.mp hmem
    obtain ⟨c, hc, rfl⟩ := List.mem_map.mp htr
    exact absurd (emit_mem_abort i k c hin) (by simp [h2 c hc])
  cases k with
  | abortEv =>
    simp [List.count_cons, List.count_append, count_emit_map_call,
      count_emit_map_cancel, hflat]
  | abortedEv =>
    simp [List.count_cons, List.count_append, count_emit_map_call,
      count_emit_map_cancel, hflat]

/-- C2: the specification claims `removeChildAborter` with a scope that
was never added is a no-op that leaves `children` unchanged.  The code
violates this: `children.splice(children.indexOf(child), 1)` gets
`indexOf == -1` for an absent child, and `splice(-1, 1)` removes the LAST
element of a non-empty array.  Below, removing the never-added scope `2`
from a parent whose children are `[1]` empties the list, and removing the
never-added scope `3` from a parent whose children are `[1, 2]` drops
child `2`.  (Only on an empty children list is the call a no-op.) -/
theorem c2_removeChild_absent_removes_last :
    (removeChildAborter (.mk 0 false [.mk 1 false [] [] [] []] [] [] []) 2).children = []
    ∧ (removeChildAborter
        (.mk 0 false [.mk 1 false [] [] [] [], .mk 2 false [] [] [] []] [] [] []) 3).children
      = [.mk 1 false [] [] [] []]
    ∧ (removeChildAborter (.mk 0 false [] [] [] []) 2).children = [] :=
  ⟨rfl, rfl, rfl⟩

/-- C6: the `aborted` query equals `ownFlag` AND every child canceled
(recursively); it is never true unless `ownFlag` is true; a parent with
own flag true but one non-canceled child reports false, and reports true
once that child has been canceled as well. -/
theorem c6_isCanceled_composite (a : MagicAborter) :
    a.aborted = (a.ownFlag && a.children.all aborted)
    ∧ (a.aborted = true → a.ownFlag = true)
    ∧ (∀ (i : Nat) (ops la lb : List Nat) (c1 c2 : MagicAborter),
        aborted c1 = true → aborted c2 = false →
        aborted (.mk i true [c1, c2] ops la lb) = false
          ∧ aborted (.mk i true [c1, (abort c2).1] ops la lb) = true) := by
  refine ⟨?_, ?_, ?_⟩
  · obtain ⟨i, f, ch, ops, la, lb⟩ := a
    rw [aborted_mk]
    rfl
  · obtain ⟨i, f, ch, ops, la, lb⟩ := a
    rw [aborted_mk]
    intro h
    simpa [ownFlag] using (Bool.and_eq_true _ _).mp h |>.1
  · intro i ops la lb c1 c2 h1 h2
    constructor
    · rw [aborted_mk]; simp [h1, h2]
    · rw [aborted_mk]; simp [h1, abort_aborted]

theorem c6_isCanceled_composite_witness :
    aborted (.mk 0 true [.mk 1 true [] [] [] [], .mk 2 false [] [] [] []] [] [] []) = false
    ∧ aborted (.mk 0 true
        [.mk 1 true [] [] [] [], (abort (.mk 2 false [] [] [] [])).1] [] [] []) = true :=
  (c6_isCanceled_composite (.mk 0 false [] [] [] [])).2.2 0 [] [] []
    (.mk 1 true [] [] [] []) (.mk 2 false [] [] [] []) rfl rfl

/-- C10: on a scope whose own flag is true, `collect` with an operation
already present leaves `collections` unchanged but still resets the own
flag to false, so the derived `aborted` query becomes false even though
nothing new was registered. -/
theorem c10_collect_duplicate_rearms (a : MagicAborter) (op : Nat)
    (h1 : a.ownFlag = true) (h2 : op ∈ a.collections) :
    (collect a op).collections = a.collections
    ∧ (collect a op).ownFlag = false
    ∧ aborted (collect a op) = false := by
  obtain ⟨i, f, ch, ops, la, lb⟩ := a
  simp only [collections] at h2
  refine ⟨?_, rfl, ?_⟩
  · simp [collect, collections, h2]
  · rw [collect, aborted_mk]
    simp

theorem c10_collect_duplicate_rearms_witness :
    (collect (.mk 0 true [] [2] [] []) 2).collections = [2]
    ∧ (collect (.mk 0 true [] [2] [] []) 2).ownFlag = false
    ∧ aborted (collect (.mk 0 true [] [2] [] []) 2) = false :=
  c10_collect_duplicate_rearms (.mk 0 true [] [2] [] []) 2 rfl (by decide)

/-- C5: on a scope whose `aborted` query reads true, registering a new
operation makes `aborted` read false (re-arm); a subsequent `abort()`
invokes that operation's cancel procedure and makes `aborted` read true
again. -/
theorem c5_rearm (a : MagicAborter) (op : Nat) (h : a.aborted = true) :
    aborted (collect a op) = false
    ∧ Event.cancel op ∈ (abort (collect a op)).2
    ∧ aborted (abort (collect a op)).1 = true := by
  obtain ⟨i, f, ch, ops, la, lb⟩ := a
  have hre : aborted (collect (.mk i f ch ops la lb) op) = false := by
    rw [collect, aborted_mk]; simp
  refine ⟨hre, ?_, abort_aborted _⟩
  rw [collect] at hre ⊢
  rw [abort_run _ _ _ _ _ _ hre]
  have : op ∈ (if op ∈ ops then ops else ops ++ [op]) := by
    split
    · assumption
    · simp
  apply List.mem_cons_of_mem
  apply List.mem_append_left
  apply List.mem_append_left
  apply List.mem_append_right
  exact List.mem_map.mpr ⟨op, this, rfl⟩

theorem c5_rearm_witness :
    aborted (collect (.mk 0 true [] [] [] []) 7) = false
    ∧ Event.cancel 7 ∈ (abort (collect (.mk 0 true [] [] [] []) 7)).2
    ∧ aborted (abort (collect (.mk 0 true [] [] [] []) 7)).1 = true :=
  c5_rearm (.mk 0 true [] [] [] []) 7 rfl

/-- C1: on a scope that is not already canceled (and whose descendants
are distinct objects from it), after the pure-view `abort()` pass returns,
the derived `aborted` query is true, `collections` is empty, and the
`"abort"` and `"aborted"` events have each been emitted exactly once for
this pass. -/
theorem c1_cancel_postcondition (a : MagicAborter)
    (h1 : a.aborted = false)
    (h2 : ∀ c ∈ a.children, memId a.objId c = false) :
    aborted (abort a).1 = true
    ∧ (abort a).1.collections = []
    ∧ (abort a).2.count (Event.emit a.objId .abortEv) = 1
    ∧ (abort a).2.count (Event.emit a.objId .abortedEv) = 1 := by
  refine ⟨abort_aborted a, ?_, abort_emit_count a .abortEv h1 h2,
    abort_emit_count a .abortedEv h1 h2⟩
  obtain ⟨i, f, ch, ops, la, lb⟩ := a
  rw [abort_run _ _ _ _ _ _ h1]
  rfl

theorem c1_cancel_postcondition_witness :
    aborted (abort (.mk 0 false [.mk 1 false [] [3] [] []] [2] [4] [5])).1 = true
    ∧ (abort (.mk 0 false [.mk 1 false [] [3] [] []] [2] [4] [5])).1.collections = []
    ∧ (abort (.mk 0 false [.mk 1 false [] [3] [] []] [2] [4] [5])).2.count
        (Event.emit 0 .abortEv) = 1
    ∧ (abort (.mk 0 false [.mk 1 false [] [3] [] []] [2] [4] [5])).2.count
        (Event.emit 0 .abortedEv) = 1 :=
  c1_cancel_postcondition (.mk 0 false [.mk 1 false [] [3] [] []] [2] [4] [5])
    rfl (by decide)

/-- C4: a second `abort()` immediately after a completed pass is a no-op:
it returns the state unchanged with an empty trace, and (over arbitrary
listener/operation behaviours, via the interpreter) it returns normally
without invoking anything; the operation set stays empty, the query stays
true, and in the two calls together each lifecycle event has fired
exactly once. -/
theorem c4_idempotent (a : MagicAborter)
    (h1 : a.aborted = false)
    (h2 : ∀ c ∈ a.children, memId a.objId c = false) :
    abort (abort a).1 = ((abort a).1, [])
    ∧ (∀ (lenv oenv : Nat → Behavior) (fuel : Nat),
        abortR lenv oenv fuel (abort a).1 = some ((abort a).1, [], false))
    ∧ (abort a).1.collections = []
    ∧ aborted (abort a).1 = true
    ∧ ((abort a).2 ++ (abort (abort a).1).2).count (Event.emit a.objId .abortEv) = 1
    ∧ ((abort a).2 ++ (abort (abort a).1).2).count (Event.emit a.objId .abortedEv) = 1 := by
  have hstop := abort_of_aborted (abort a).1 (abort_aborted a)
  refine ⟨hstop, ?_, ?_, abort_aborted a, ?_, ?_⟩
  · intro lenv oenv fuel
    rw [abortR]
    simp [abort_aborted a]
  · obtain ⟨i, f, ch, ops, la, lb⟩ := a
    rw [abort_run _ _ _ _ _ _ h1]
    rfl
  · rw [List.count_append, hstop]
    simp [abort_emit_count a .abortEv h1 h2]
  · rw [List.count_append, hstop]
    simp [abort_emit_count a .abortedEv h1 h2]

theorem c4_idempotent_witness :
    abort (abort (.mk 0 false [] [2] [4] [5])).1 = ((abort (.mk 0 false [] [2] [4] [5])).1, [])
    ∧ (∀ (lenv oenv : Nat → Behavior) (fuel : Nat),
        abortR lenv oenv fuel (abort (.mk 0 false [] [2] [4] [5])).1
          = some ((abort (.mk 0 false [] [2] [4] [5])).1, [], false))
    ∧ (abort (.mk 0 false [] [2] [4] [5])).1.collections = []
    ∧ aborted (abort (.mk 0 false [] [2] [4] [5])).1 = true
    ∧ ((abort (.mk 0 false [] [2] [4] [5])).2
        ++ (abort (abort (.mk 0 false [] [2] [4] [5])).1).2).count (Event.emit 0 .abortEv) = 1
    ∧ ((abort (.mk 0 false [] [2] [4] [5])).2
        ++ (abort (abort (.mk 0 false [] [2] [4] [5])).1).2).count (Event.emit 0 .abortedEv) = 1 :=
  c4_idempotent (.mk 0 false [] [2] [4] [5]) rfl (by decide)

/-- C3: a pass on a scope with operations `[a, b, c]` (in that order), no
children, and listeners for both event kinds produces exactly: the
`"abort"` emission with its listeners in order, then `cancel a`,
`cancel b`, `cancel c` (registration/FIFO order), then (the empty) child
cancellation, then the `"aborted"` emission with its listeners; each
distinct operation is canceled exactly once and `collections` is empty
afterwards. -/
theorem c3_fanout_event_order (i a b c : Nat) (la lb : List Nat)
    (hla : la ≠ []) (hlb : lb ≠ [])
    (hab : a ≠ b) (hac : a ≠ c) (hbc : b ≠ c) :
    abort (.mk i false [] [a, b, c] la lb)
      = (.mk i true [] [] la lb,
          Event.emit i .abortEv :: la.map Event.call
            ++ [Event.cancel a, Event.cancel b, Event.cancel c]
            ++ Event.emit i .abortedEv :: lb.map Event.call)
    ∧ (abort (.mk i false [] [a, b, c] la lb)).2.count (Event.cancel a) = 1
    ∧ (abort (.mk i false [] [a, b, c] la lb)).2.count (Event.cancel b) = 1
    ∧ (abort (.mk i false [] [a, b, c] la lb)).2.count (Event.cancel c) = 1 := by
  have hg : aborted (.mk i false [] [a, b, c] la lb) = false := by
    rw [aborted_mk]; simp
  have heq := abort_run i false [] [a, b, c] la lb hg
  simp only [List.map_nil, List.flatten_nil, List.map_cons, List.append_nil] at heq
  refine ⟨by rw [heq], ?_, ?_, ?_⟩
  all_goals rw [heq]
  all_goals simp [List.count_cons, List.count_append, count_cancel_map_call,
    Ne.symm hab, Ne.symm hac, Ne.symm hbc, hab, hac, hbc]

theorem c3_fanout_event_order_witness :
    abort (.mk 0 false [] [1, 2, 3] [4] [5])
      = (.mk 0 true [] [] [4] [5],
          Event.emit 0 .abortEv :: [4].map Event.call
            ++ [Event.cancel 1, Event.cancel 2, Event.cancel 3]
            ++ Event.emit 0 .abortedEv :: [5].map Event.call)
    ∧ (abort (.mk 0 false [] [1, 2, 3] [4] [5])).2.count (Event.cancel 1) = 1
    ∧ (abort (.mk 0 false [] [1, 2, 3] [4] [5])).2.count (Event.cancel 2) = 1
    ∧ (abort (.mk 0 false [] [1, 2, 3] [4] [5])).2.count (Event.cancel 3) = 1 :=
  c3_fanout_event_order 0 1 2 3 [4] [5] (by decide) (by decide)
    (by decide) (by decide) (by decide)

/-- C9: `collect` ignores a duplicate (identity comparison): registering
the same operation twice leaves it once in `collections`, and one pass
cancels it exactly once (no descendant holding the same operation). -/
theorem c9_duplicate_registration (a : MagicAborter) (op : Nat)
    (h1 : op ∉ a.collections) (h2 : ∀ c ∈ a.children, memOp op c = false) :
    (collect (collect a op) op).collections.count op = 1
    ∧ (abort (collect (collect a op) op)).2.count (Event.cancel op) = 1 := by
  obtain ⟨i, f, ch, ops, la, lb⟩ := a
  simp only [collections] at h1
  simp only [children] at h2
  have hc1 : collect (.mk i f ch ops la lb) op = .mk i false ch (ops ++ [op]) la lb := by
    rw [collect]; simp [h1]
  have hc2 : collect (.mk i false ch (ops ++ [op]) la lb) op
      = .mk i false ch (ops ++ [op]) la lb := by
    rw [collect]; simp
  rw [hc1, hc2]
  constructor
  · simp [collections, List.count_append, List.count_eq_zero.mpr h1]
  · have hg : aborted (.mk i false ch (ops ++ [op]) la lb) = false := by
      rw [aborted_mk]; simp
    rw [abort_run _ _ _ _ _ _ hg]
    have hflat : ((ch.map (fun c => (abort c).2)).flatten).count (Event.cancel op) = 0 := by
      rw [List.count_eq_zero]
      intro hmem
      obtain ⟨tr, htr, hin⟩ := List.mem_flatten.mp hmem
      obtain ⟨c, hc, rfl⟩ := List.mem_map.mp htr
      exact absurd (cancel_mem_abort op c hin) (by simp [h2 c hc])
    simp [List.count_cons, List.count_append, count_cancel_map_call,
      count_cancel_map_cancel, hflat, List.count_eq_zero.mpr h1]

theorem c9_duplicate_registration_witness :
    (collect (collect (.mk 0 false [.mk 1 false [] [9] [] []] [5] [] []) 7) 7).collections.count 7
      = 1
    ∧ (abort (collect (collect (.mk 0 false [.mk 1 false [] [9] [] []] [5] [] []) 7) 7)).2.count
        (Event.cancel 7) = 1 :=
  c9_duplicate_registration (.mk 0 false [.mk 1 false [] [9] [] []] [5] [] []) 7
    (by decide) (by decide)

/-- C7: an exception raised by a listener callback or by an operation's
cancel procedure during a pass is not caught: the pass result records the
escaped exception, and the remainder of the pass does not run.  First
conjunct: a throwing `"abort"` listener (after well-behaved ones) stops
the pass before any operation is canceled — the state (collections,
children, own flag) is untouched and `"aborted"` is never emitted.
Second conjunct: a throwing operation stops the drain — the earlier
operations were canceled, the later ones survive in `collections`,
children and the own flag are untouched, and `"aborted"` is never
emitted. -/
theorem c7_exception_terminates_pass (s : MagicAborter) (lenv oenv : Nat → Behavior)
    (fuel : Nat) :
    (∀ pre l post, s.aborted = false → s.onAbortL = pre ++ l :: post →
        (∀ p ∈ pre, lenv p = .ret) → lenv l = .throwEx →
        abortR lenv oenv fuel s =
          some (s, Event.emit s.objId .abortEv :: (pre ++ [l]).map Event.call, true))
    ∧ (∀ pre op post, s.aborted = false →
        (∀ l ∈ s.onAbortL, lenv l = .ret) →
        s.collections = pre ++ op :: post →
        (∀ p ∈ pre, oenv p = .ret) → oenv op = .throwEx → pre.length < fuel →
        abortR lenv oenv fuel s =
          some (withCollections s post,
            Event.emit s.objId .abortEv ::
              (s.onAbortL.map Event.call ++ (pre ++ [op]).map Event.cancel), true)) := by
  constructor
  · intro pre l post hg hsplit hpre hl
    rw [abortR, if_neg (by simp [hg]), hsplit,
      runL_ret_throw lenv pre l post s hpre hl]
  · intro pre op post hg hla hsplit hpre hop hfuel
    rw [abortR, if_neg (by simp [hg]), runL_all_ret lenv s.onAbortL s hla]
    dsimp only
    rw [drain_ret_throw oenv pre op post fuel s hsplit hpre hop hfuel]
    rfl

theorem c7_exception_terminates_pass_witness :
    abortR (fun n => if n == 9 then Behavior.throwEx else Behavior.ret)
        (fun _ => Behavior.ret) 5 (.mk 0 false [] [1] [9] [6]) =
      some (.mk 0 false [] [1] [9] [6],
        Event.emit 0 .abortEv :: ([] ++ [9]).map Event.call, true)
    ∧ abortR (fun _ => Behavior.ret)
        (fun n => if n == 8 then Behavior.throwEx else Behavior.ret) 5
        (.mk 0 false [.mk 1 false [] [] [] []] [7, 8, 3] [4] [6]) =
      some (withCollections (.mk 0 false [.mk 1 false [] [] [] []] [7, 8, 3] [4] [6]) [3],
        Event.emit 0 .abortEv ::
          ([4].map Event.call ++ ([7] ++ [8]).map Event.cancel), true) :=
  ⟨(c7_exception_terminates_pass (.mk 0 false [] [1] [9] [6])
      (fun n => if n == 9 then Behavior.throwEx else Behavior.ret)
      (fun _ => Behavior.ret) 5).1 [] 9 [] rfl rfl (by simp) (by decide),
   (c7_exception_terminates_pass (.mk 0 false [.mk 1 false [] [] [] []] [7, 8, 3] [4] [6])
      (fun _ => Behavior.ret)
      (fun n => if n == 8 then Behavior.throwEx else Behavior.ret) 5).2 [7] 8 [3] rfl
      (by decide) rfl (by decide) (by decide) (by decide)⟩

/-- C8: in a pass that completes without an exception (and that actually
ran), every operation registered re-entrantly during the pass — by an
`"abort"` listener, or by the cancel procedure of an operation that was
itself being drained — is observed by the live drain loop and canceled
within the same pass (its `cancel` is in this pass's trace). -/
theorem c8_reentrant_collect_same_pass (s s' : MagicAborter) (lenv oenv : Nat → Behavior)
    (fuel : Nat) (tr : List Event)
    (h : abortR lenv oenv fuel s = some (s', tr, false)) (hg : s.aborted = false) :
    (∀ l ∈ s.onAbortL, ∀ b, lenv l = .collectOp b → Event.cancel b ∈ tr)
    ∧ (∀ op ∈ s.collections, ∀ b, oenv op = .collectOp b → Event.cancel b ∈ tr) := by
  rw [abortR, if_neg (by simp [hg])] at h
  split at h
  · simp at h
  · next s1 tr1 heq1 =>
    split at h
    · exact absurd h (by simp)
    · next s2 tr2 heq2 => simp at h
    · next s2 tr2 heq2 =>
      dsimp only at h
      simp only [Option.some.injEq, Prod.mk.injEq] at h
      obtain ⟨-, htr, -⟩ := h
      constructor
      · intro l hl b hb
        have hb1 : b ∈ s1.collections :=
          runL_collect_mem lenv s.onAbortL s s1 tr1 l heq1 hl hb
        have hb2 : Event.cancel b ∈ tr2 :=
          drain_complete_cancels oenv fuel s1 s2 tr2 heq2 b hb1
        rw [← htr]
        apply List.mem_cons_of_mem
        apply List.mem_append_left
        apply List.mem_append_left
        exact List.mem_append_right _ hb2
      · intro op hop b hb
        have hop1 : op ∈ s1.collections :=
          runL_mem_preserve lenv s.onAbortL s s1 tr1 heq1 hop
        have hb2 : Event.cancel b ∈ tr2 :=
          drain_collectOp_canceled oenv fuel s1 s2 tr2 op b heq2 hop1 hb
        rw [← htr]
        apply List.mem_cons_of_mem
        apply List.mem_append_left
        apply List.mem_append_left
        exact List.mem_append_right _ hb2

theorem c8_reentrant_collect_same_pass_witness :
    Event.cancel 3 ∈
      [Event.emit 0 .abortEv, Event.call 5, Event.cancel 1, Event.cancel 3, Event.cancel 4,
        Event.emit 0 .abortedEv]
    ∧ Event.cancel 4 ∈
      [Event.emit 0 .abortEv, Event.call 5, Event.cancel 1, Event.cancel 3, Event.cancel 4,
        Event.emit 0 .abortedEv] :=
  ⟨(c8_reentrant_collect_same_pass (.mk 0 false [] [1] [5] [])
      (.mk 0 true [] [] [5] [])
      (fun l => if l == 5 then Behavior.collectOp 3 else Behavior.ret)
      (fun o => if o == 1 then Behavior.collectOp 4 else Behavior.ret)
      10
      [Event.emit 0 .abortEv, Event.call 5, Event.cancel 1, Event.cancel 3, Event.cancel 4,
        Event.emit 0 .abortedEv]
      rfl rfl).1 5 (by decide) 3 (by decide),
   (c8_reentrant_collect_same_pass (.mk 0 false [] [1] [5] [])
      (.mk 0 true [] [] [5] [])
      (fun l => if l == 5 then Behavior.collectOp 3 else Behavior.ret)
      (fun o => if o == 1 then Behavior.collectOp 4 else Behavior.ret)
      10
      [Event.emit 0 .abortEv, Event.call 5, Event.cancel 1, Event.cancel 3, Event.cancel 4,
        Event.emit 0 .abortedEv]
      rfl rfl).2 1 (by decide) 4 (by decide)⟩

end MagicAborter
